import Mathlib

/-!
# Jasmin AST nodes (`include/Jasmin/AstNodes.hpp`)

A shallow embedding of the Jasmin abstract syntax tree: the value layer
(`ImmediateValue<T>`, `ArithmeticOperation`, `BinaryExpressionCommon` and
`BinaryExpression<LhsT, RhsT>`, with their `GetValue` and `ToString` members) and the
program nodes `Directive`, `Instruction` and `Label`.

Conventions of the embedding.

* A C++ call ends with a value, with a thrown exception, or in a state the C++
  standard leaves undefined.  Calls return `Result α = Except Fault α`; the fault says
  which of the two failures occurred.
* The template parameters range over the arithmetic types `int` and `double`.  `int` is
  the 32-bit signed type; an arithmetic result outside its range, a zero
  divisor, and `INT_MIN / -1` are undefined.  The arithmetic of `double` belongs to the
  language and is a parameter (`FloatingPoint`).
* `BinaryExpression` is taken with its default third template argument,
  `std::common_type<LhsT, RhsT>::type`.
* A term of type `Value fp` is the content of a `uPtr<Value<T>>`: null or an owned node.
* `ArithmeticOperation` is an `enum class` whose underlying type is `int`, so an object of
  the type can hold any underlying value; the four enumerators are 0, 1, 2 and 3.
-/

namespace Jasmin
namespace AstNodes

/-! ## Outcomes of a call -/

/-- The ways a call ends without a value. -/
inductive Fault where
  /-- The exception `std::out_of_range`, thrown by `std::unordered_map::at`. -/
  | out_of_range
  /-- The exception `std::runtime_error` with its message. -/
  | runtime_error (what : String)
  /-- Nothing is thrown and nothing is returned: the behaviour is undefined (signed
  overflow, integer division by zero, a null pointer dereferenced). -/
  | undefined_behaviour
  deriving DecidableEq, Repr

/-- A fault is reported to the caller when it is a thrown exception, which a caller can
catch; undefined behaviour is reported to nobody. -/
def Fault.isThrown : Fault → Bool
  | .out_of_range => true
  | .runtime_error _ => true
  | .undefined_behaviour => false

abbrev Result (α : Type) := Except Fault α

/-- A call reports an error to its caller: it ends with a thrown exception. -/
def Thrown {α : Type} (r : Result α) : Prop :=
  ∃ f, r = .error f ∧ f.isThrown = true

/-! ## Arithmetic types -/

/-- The arithmetic of the C++ type `double`: conversion from and to `int`, the four
operators, and the text `operator<<` writes.  It belongs to the language, not to the
header, and the development is parametric in it. -/
structure FloatingPoint where
  F : Type
  ofInt : Int → F
  /-- Conversion to `int` by truncation; `none` where the truncated value does not fit. -/
  toInt : F → Option Int
  add : F → F → F
  sub : F → F → F
  div : F → F → F
  mul : F → F → F
  text : F → String

/-- Exact rational arithmetic.  It agrees with IEEE-754 binary64 on every operation whose
operands and exact result are representable, such as `2 + 1.5 = 3.5`. -/
def exactArith : FloatingPoint where
  F := ℚ
  ofInt := fun i => (i : ℚ)
  toInt := fun q =>
    if -2147483648 ≤ Int.tdiv q.num q.den ∧ Int.tdiv q.num q.den ≤ 2147483647
    then some (Int.tdiv q.num q.den) else none
  add := fun a b => a + b
  sub := fun a b => a - b
  div := fun a b => a / b
  mul := fun a b => a * b
  text := fun q => toString q

/-- The template arguments considered: `int` and `double`. -/
inductive CType where
  | int
  | double
  deriving DecidableEq, Repr

/-- The type `std::common_type<LhsT, RhsT>::type`, default of the template parameter
`CommonType`. -/
def commonType : CType → CType → CType
  | .int, .int => .int
  | _, _ => .double

/-- A literal: a value of one of the arithmetic types. -/
inductive Lit (fp : FloatingPoint) where
  | int (v : Int)
  | double (v : fp.F)

/-- The static type of a literal. -/
def Lit.type {fp : FloatingPoint} : Lit fp → CType
  | .int _ => .int
  | .double _ => .double

def INT_MIN : Int := -2147483648

def INT_MAX : Int := 2147483647

/-- The result of an `int` operation whose mathematical value is `r`: undefined when `r`
is not representable. -/
def inInt (r : Int) : Result Int :=
  if INT_MIN ≤ r ∧ r ≤ INT_MAX then .ok r else .error .undefined_behaviour

/-- Built-in `+` on `int`. -/
def intAdd (a b : Int) : Result Int := inInt (a + b)

/-- Built-in `-` on `int`. -/
def intSub (a b : Int) : Result Int := inInt (a - b)

/-- Built-in `/` on `int`: the quotient truncated toward zero, undefined for a zero
divisor. -/
def intDiv (a b : Int) : Result Int :=
  if b = 0 then .error .undefined_behaviour else inInt (Int.tdiv a b)

/-- Built-in `*` on `int`. -/
def intMul (a b : Int) : Result Int := inInt (a * b)

/-- A built-in binary operator applied to operands of types `LhsT` and `RhsT`: the usual
arithmetic conversions bring both operands to one type, in which the operation is
carried out. -/
def builtinOperator (fp : FloatingPoint) (iop : Int → Int → Result Int)
    (fop : fp.F → fp.F → fp.F) : Lit fp → Lit fp → Result (Lit fp)
  | .int a, .int b => do
      let r ← iop a b
      pure (.int r)
  | .int a, .double b => pure (.double (fop (fp.ofInt a) b))
  | .double a, .int b => pure (.double (fop a (fp.ofInt b)))
  | .double a, .double b => pure (.double (fop a b))

/-- The expression `x + y`. -/
def operatorAdd (fp : FloatingPoint) : Lit fp → Lit fp → Result (Lit fp) :=
  builtinOperator fp intAdd fp.add

/-- The expression `x - y`. -/
def operatorSub (fp : FloatingPoint) : Lit fp → Lit fp → Result (Lit fp) :=
  builtinOperator fp intSub fp.sub

/-- The expression `x / y`. -/
def operatorDiv (fp : FloatingPoint) : Lit fp → Lit fp → Result (Lit fp) :=
  builtinOperator fp intDiv fp.div

/-- The expression `x * y`. -/
def operatorMul (fp : FloatingPoint) : Lit fp → Lit fp → Result (Lit fp) :=
  builtinOperator fp intMul fp.mul

/-- Implicit conversion of a value to the type `c`, as performed by a `return` statement
of a function whose return type is `c`. -/
def convertTo (fp : FloatingPoint) (c : CType) : Lit fp → Result (Lit fp)
  | .int v =>
      match c with
      | .int => .ok (.int v)
      | .double => .ok (.double (fp.ofInt v))
  | .double v =>
      match c with
      | .int =>
          match fp.toInt v with
          | some i => .ok (.int i)
          | none => .error .undefined_behaviour
      | .double => .ok (.double v)

/-- The text `operator<<` writes for an `int`: a minus sign for a negative value, then
the decimal digits of the magnitude. -/
def intText (v : Int) : String :=
  if v < 0 then "-" ++ String.mk (Nat.toDigits 10 v.natAbs)
  else String.mk (Nat.toDigits 10 v.natAbs)

/-- The text `operator<<` writes for a literal. -/
def Lit.text {fp : FloatingPoint} : Lit fp → String
  | .int v => intText v
  | .double v => fp.text v

/-! ## `ArithmeticOperation` and the operation registry -/

/-- The scoped enumeration `ArithmeticOperation`: an object holds a value of the
underlying type `int`. -/
structure ArithmeticOperation where
  underlying : Int
  deriving DecidableEq, Repr

namespace ArithmeticOperation

def Add : ArithmeticOperation := ⟨0⟩

def Sub : ArithmeticOperation := ⟨1⟩

def Div : ArithmeticOperation := ⟨2⟩

def Mul : ArithmeticOperation := ⟨3⟩

/-- The closed set of enumerators. -/
def closed : List ArithmeticOperation := [Add, Sub, Div, Mul]

end ArithmeticOperation

/-- A `std::unordered_map` with its entries. -/
abbrev UnorderedMap (κ ν : Type) := List (κ × ν)

/-- The member `at` of `std::unordered_map`: the mapped value of the key, and
`std::out_of_range` when the key is absent. -/
def UnorderedMap.at {κ ν : Type} [DecidableEq κ] (m : UnorderedMap κ ν) (k : κ) : Result ν :=
  match m.find? (fun e => decide (e.1 = k)) with
  | some e => .ok e.2
  | none => .error .out_of_range

/-- Modelled from the spec: the contents of `BinaryExpressionCommon::CharOpMap`, which the
header only declares.  The registry maps the operator symbols "+", "-", "/", "*" to the
tags Add, Sub, Div, Mul. -/
def CharOpMap : UnorderedMap String ArithmeticOperation :=
  [("+", .Add), ("-", .Sub), ("/", .Div), ("*", .Mul)]

/-- Modelled from the spec: the contents of `BinaryExpressionCommon::OpCharMap`, which the
header only declares.  The registry maps every tag to its canonical symbol. -/
def OpCharMap : UnorderedMap ArithmeticOperation String :=
  [(.Add, "+"), (.Sub, "-"), (.Div, "/"), (.Mul, "*")]

/-- The operator symbols of the registry. -/
def symbols : List String := ["+", "-", "/", "*"]

/-! ## Value trees -/

/-- The content of a `uPtr<Value<T>>`: null (of static type `Value<t>*`), or an owned
`ImmediateValue<T>` or `BinaryExpression<LhsT, RhsT>` with its fields. -/
inductive Value (fp : FloatingPoint) where
  | null (t : CType)
  | ImmediateValue (Value : Lit fp)
  | BinaryExpression (Op : ArithmeticOperation) (Lhs Rhs : Value fp)

/-- The template argument `T` of the base `Value<T>` of a node. -/
def typeOf {fp : FloatingPoint} : Value fp → CType
  | .null t => t
  | .ImmediateValue v => v.type
  | .BinaryExpression _ l r => commonType (typeOf l) (typeOf r)

/-- The constructor `BinaryExpression(ArithmeticOperation op, Value<LhsT>* lhs,
Value<RhsT>* rhs)`: the fields are initialised with the arguments. -/
def BinaryExpression.fromTag {fp : FloatingPoint} (op : ArithmeticOperation)
    (lhs rhs : Value fp) : Value fp :=
  .BinaryExpression op lhs rhs

/-- The constructor `BinaryExpression(std::string_view op, Value<LhsT>* lhs,
Value<RhsT>* rhs)`: it delegates to the tag constructor with `CharOpMap.at(op)`; when the
lookup throws, no object is constructed. -/
def BinaryExpression.fromSymbol {fp : FloatingPoint} (op : String)
    (lhs rhs : Value fp) : Result (Value fp) := do
  let tag ← CharOpMap.at op
  pure (BinaryExpression.fromTag tag lhs rhs)

/-- The member `GetValue`.  `ImmediateValue<T>::GetValue` returns the stored value;
`BinaryExpression::GetValue` switches on `Op`, evaluates both operands, applies the
operator and returns the result as `CommonType`.  The operands are evaluated left, then
right. -/
def GetValue (fp : FloatingPoint) : Value fp → Result (Lit fp)
  | .null _ => .error .undefined_behaviour
  | .ImmediateValue v => .ok v
  | .BinaryExpression op l r =>
      if op = .Add then do
        let a ← GetValue fp l
        let b ← GetValue fp r
        let v ← operatorAdd fp a b
        convertTo fp (commonType (typeOf l) (typeOf r)) v
      else if op = .Sub then do
        let a ← GetValue fp l
        let b ← GetValue fp r
        let v ← operatorSub fp a b
        convertTo fp (commonType (typeOf l) (typeOf r)) v
      else if op = .Div then do
        let a ← GetValue fp l
        let b ← GetValue fp r
        let v ← operatorDiv fp a b
        convertTo fp (commonType (typeOf l) (typeOf r)) v
      else if op = .Mul then do
        let a ← GetValue fp l
        let b ← GetValue fp r
        let v ← operatorMul fp a b
        convertTo fp (commonType (typeOf l) (typeOf r)) v
      else .error (.runtime_error "unhandled arithmetic operation type")

/-- The member `ToString`: the text accumulated in the string stream `ss`. -/
def ToString (fp : FloatingPoint) : Value fp → Result String
  | .null _ => .error .undefined_behaviour
  | .ImmediateValue v =>
      let ss := ""
      let ss := ss ++ "ImmediateValue\x7b"
      let ss := ss ++ v.text
      let ss := ss ++ "\x7d"
      .ok ss
  | .BinaryExpression op l r => do
      let ss := ""
      let ss := ss ++ "BinaryExpression\x7b "
      let lhs ← ToString fp l
      let ss := ss ++ lhs
      let ss := ss ++ " "
      let sym ← OpCharMap.at op
      let ss := ss ++ sym
      let ss := ss ++ " "
      let rhs ← ToString fp r
      let ss := ss ++ rhs
      let ss := ss ++ " \x7d"
      pure ss

/-! ## Reference definitions of the specification -/

/-- An operation carried out on two operands of one and the same type. -/
def sameType (fp : FloatingPoint) (iop : Int → Int → Result Int)
    (fop : fp.F → fp.F → fp.F) : Lit fp → Lit fp → Result (Lit fp)
  | .int x, .int y => do
      let r ← iop x y
      pure (.int r)
  | .double x, .double y => pure (.double (fop x y))
  | _, _ => .error .undefined_behaviour

/-- The `apply(op, a, b)` of the specification for a tag of the closed set: `a+b`, `a-b`,
`a/b`, `a*b` respectively, in the common type of the two operand types.  Both operands
are converted to the common type and the operation of that type is applied; the last
case is the one of `Mul`. -/
def apply (fp : FloatingPoint) (op : ArithmeticOperation) (a b : Lit fp) :
    Result (Lit fp) := do
  let x ← convertTo fp (commonType a.type b.type) a
  let y ← convertTo fp (commonType a.type b.type) b
  if op = .Add then sameType fp intAdd fp.add x y
  else if op = .Sub then sameType fp intSub fp.sub x y
  else if op = .Div then sameType fp intDiv fp.div x y
  else sameType fp intMul fp.mul x y

/-- The decimal representation of a natural number: its digits, most significant
first. -/
def decimal (n : Nat) : List Char :=
  if n < 10 then [Nat.digitChar n] else decimal (n / 10) ++ [Nat.digitChar (n % 10)]
decreasing_by omega

/-- A tree without null pointers whose tags all lie in the closed set. -/
def wellFormed {fp : FloatingPoint} : Value fp → Bool
  | .null _ => false
  | .ImmediateValue _ => true
  | .BinaryExpression op l r =>
      decide (op ∈ ArithmeticOperation.closed) && wellFormed l && wellFormed r

/-! ## Calls on a tree as state transitions

The two members are embedded a second time with the object state passed through the
statements of their bodies.  A call runs on the object `*this` together with the objects
it owns, and ends with an outcome and with these objects in the state the statements left
them in.  A call made through `Lhs` or `Rhs` runs on the operand object, and the body goes
on with the operand in the state that call ended in; a thrown exception leaves the objects
as they are at the throw.  A `uPtr` owns its object alone, so the objects behind `Lhs`
and those behind `Rhs` have no object in common.  The registry maps are `static const`
objects. -/

/-- Modelled from the spec: the layout of a rendering of `Directive`, `Instruction` and
`Label`, whose `ToString` bodies are not in the header.  The specification leaves the
exact format to the implementation; a layout gives the text a name is rendered as, the
text put before the item of each index, and the text closing a sequence of a given
length. -/
structure Layout where
  header : String → String
  before : Nat → String
  footer : Nat → String

/-- The items of a sequence, each after the text the layout puts before it, starting at
index `i`. -/
def Layout.items (lay : Layout) : Nat → List String → String
  | _, [] => ""
  | i, x :: xs => lay.before i ++ x ++ lay.items (i + 1) xs

/-- Modelled from the spec: the common shape of the three `ToString` bodies missing from
the header, a name followed by the items of a sequence, in their order. -/
def Layout.render (lay : Layout) (name : String) (items : List String) : String :=
  lay.header name ++ lay.items 0 items ++ lay.footer items.length

/-- The layouts of the three node kinds. -/
structure Rendering where
  directive : Layout
  instruction : Layout
  label : Layout

/-- The content of a `uPtr<Value<std::string>>`: null or an owned
`ImmediateValue<std::string>`. -/
inductive StringValue where
  | null
  | ImmediateValue (Value : String)

/-- The member `ToString` of `ImmediateValue<std::string>`; `operator<<` writes the
string itself. -/
def StringValue.ToString : StringValue → Result String
  | .null => .error .undefined_behaviour
  | .ImmediateValue v =>
      let ss := ""
      let ss := ss ++ "ImmediateValue\x7b"
      let ss := ss ++ v
      let ss := ss ++ "\x7d"
      .ok ss

/-- The variant `Instruction::ArgT`: a string-valued or a numeric-valued node. -/
inductive Arg (fp : FloatingPoint) where
  | string (p : StringValue)
  | number (p : Value fp)

/-- The member `ToString` of the node an argument holds. -/
def Arg.ToString (fp : FloatingPoint) : Arg fp → Result String
  | .string p => p.ToString
  | .number p => AstNodes.ToString fp p

/-- The struct `Instruction` with its fields. -/
structure Instruction (fp : FloatingPoint) where
  Name : String
  Args : List (Arg fp)

/-- Modelled from the spec: the constructor `Instruction(std::string name)`, whose body is
not in the header.  It takes a name; the arguments are appended after construction. -/
def Instruction.create {fp : FloatingPoint} (name : String) : Instruction fp :=
  ⟨name, []⟩

/-- An argument appended to the public field `Args` (`push_back`). -/
def Instruction.append {fp : FloatingPoint} (i : Instruction fp) (a : Arg fp) :
    Instruction fp :=
  ⟨i.Name, i.Args ++ [a]⟩

/-- The renderings of the arguments, in their order; the first failure ends the call. -/
def Arg.ToStringAll (fp : FloatingPoint) : List (Arg fp) → Result (List String)
  | [] => .ok []
  | a :: as => do
      let t ← Arg.ToString fp a
      let ts ← Arg.ToStringAll fp as
      pure (t :: ts)

/-- Modelled from the spec: the member `Instruction::ToString`, whose body is not in the
header.  It renders the name followed by the `ToString()` of each argument, in append
order. -/
def Instruction.ToString (lay : Layout) (fp : FloatingPoint) (i : Instruction fp) :
    Result String := do
  let texts ← Arg.ToStringAll fp i.Args
  pure (lay.render i.Name texts)

/-- The content of a `uPtr<Node>` of a label body: null, or an owned `Directive`,
`Instruction` or `Label` with its fields. -/
inductive Node (fp : FloatingPoint) where
  | null
  | Directive (Name : String) (Parameters : List String)
  | Instruction (node : Instruction fp)
  | Label (Name : String) (Body : List (Node fp))

/-- Modelled from the spec: the constructor `Label(std::string name)`, whose body is not
in the header.  It takes a name; the body nodes are appended after construction. -/
def Label.create {fp : FloatingPoint} (name : String) : Node fp :=
  .Label name []

/-- A node appended to the public field `Body` of a label (`push_back`). -/
def Label.append {fp : FloatingPoint} : Node fp → Node fp → Node fp
  | .Label name body, n => .Label name (body ++ [n])
  | other, _ => other

mutual
/-- Modelled from the spec: the members `Directive::ToString`, `Instruction::ToString`
and `Label::ToString` behind a `Node`, whose bodies are not in the header.  A directive
renders its name followed by its parameters in original order; a label renders its name
as a block header followed by the `ToString()` of each body node, recursively, in append
order. -/
def Node.ToString (R : Rendering) (fp : FloatingPoint) : Node fp → Result String
  | .null => .error .undefined_behaviour
  | .Directive name params => .ok (R.directive.render name params)
  | .Instruction i => i.ToString R.instruction fp
  | .Label name body => do
      let texts ← Node.ToStringAll R fp body
      pure (R.label.render name texts)
/-- Modelled from the spec: the `ToString()` of each body node of a label, in append
order; the first failure ends the call. -/
def Node.ToStringAll (R : Rendering) (fp : FloatingPoint) :
    List (Node fp) → Result (List String)
  | [] => .ok []
  | n :: ns => do
      let t ← Node.ToString R fp n
      let ts ← Node.ToStringAll R fp ns
      pure (t :: ts)
end

/-- The text `s` contains the texts `parts` as substrings that occur one after the other
in the order of the list. -/
def ContainsInOrder : String → List String → Prop
  | _, [] => True
  | s, p :: ps => ∃ u rest, s = u ++ p ++ rest ∧ ContainsInOrder rest ps

/-- A layout for examples: the name, a space before every item, nothing at the end. -/
def plainLayout : Layout where
  header := fun name => name
  before := fun _ => " "
  footer := fun _ => ""

/-- A rendering for examples: labels put their name before a colon and every body node on
a line of its own. -/
def plainRendering : Rendering where
  directive := plainLayout
  instruction := plainLayout
  label := { header := fun name => name ++ ":", before := fun _ => "\n", footer := fun _ => "" }

/-! ## Reference definitions for nested trees -/

/-- The fold of the operations of a tree over its leaf literals: the operands are folded
first, left then right, and `apply` combines their values. -/
def fold (fp : FloatingPoint) : Value fp → Result (Lit fp)
  | .null _ => .error .undefined_behaviour
  | .ImmediateValue v => .ok v
  | .BinaryExpression op l r => do
      let a ← fold fp l
      let b ← fold fp r
      apply fp op a b

/-- Every tag of the tree lies in the closed set. -/
def tagsClosed {fp : FloatingPoint} : Value fp → Bool
  | .null _ => true
  | .ImmediateValue _ => true
  | .BinaryExpression op l r =>
      decide (op ∈ ArithmeticOperation.closed) && tagsClosed l && tagsClosed r

/-- The pointer is null. -/
def Value.isNull {fp : FloatingPoint} : Value fp → Bool
  | .null _ => true
  | _ => false

/-- The invariant the specification states for a `BinaryExpression` node: `Lhs` and `Rhs`
are not null and the tag is one of the four closed values. -/
def invariant {fp : FloatingPoint} : Value fp → Bool
  | .BinaryExpression op l r =>
      !l.isNull && !r.isNull && decide (op ∈ ArithmeticOperation.closed)
  | _ => false

/-- A value of the type `int`. -/
def isInt (v : Int) : Bool := decide (INT_MIN ≤ v ∧ v ≤ INT_MAX)

/-- An integer-valued expression tree: `BinaryExpression` nodes over `ImmediateValue<int>`
leaves, without null pointers. -/
def intTree {fp : FloatingPoint} : Value fp → Bool
  | .null _ => false
  | .ImmediateValue (.int v) => isInt v
  | .ImmediateValue (.double _) => false
  | .BinaryExpression _ l r => intTree l && intTree r

/-- The outcome is the `int` value 0. -/
def isZero {fp : FloatingPoint} : Result (Lit fp) → Bool
  | .ok (.int v) => decide (v = 0)
  | _ => false

/-- No `Div` node of the tree has a right operand that evaluates to 0. -/
def noZeroDivisor (fp : FloatingPoint) : Value fp → Bool
  | .null _ => true
  | .ImmediateValue _ => true
  | .BinaryExpression op l r =>
      noZeroDivisor fp l && noZeroDivisor fp r &&
        (!decide (op = .Div) || !isZero (GetValue fp r))

/-- The tree is built only from `Add`, `Sub` and `Mul` nodes. -/
def divFree {fp : FloatingPoint} : Value fp → Bool
  | .null _ => true
  | .ImmediateValue _ => true
  | .BinaryExpression op l r => !decide (op = .Div) && divFree l && divFree r

/-- The value of an integer-valued tree in exact integer arithmetic, the quotient being
truncated toward zero. -/
def exactValue {fp : FloatingPoint} : Value fp → Int
  | .null _ => 0
  | .ImmediateValue (.int v) => v
  | .ImmediateValue (.double _) => 0
  | .BinaryExpression op l r =>
      if op = .Add then exactValue l + exactValue r
      else if op = .Sub then exactValue l - exactValue r
      else if op = .Div then Int.tdiv (exactValue l) (exactValue r)
      else exactValue l * exactValue r

/-- The exact value of every node of the tree is a value of the type `int`. -/
def noOverflow {fp : FloatingPoint} : Value fp → Bool
  | .BinaryExpression op l r =>
      noOverflow l && noOverflow r && isInt (exactValue (.BinaryExpression op l r))
  | t => isInt (exactValue t)

/-- The symbol the registry has for a tag, as characters; empty when it has none. -/
def symbolChars (op : ArithmeticOperation) : List Char :=
  match OpCharMap.at op with
  | .ok sym => sym.data
  | .error _ => []

/-- The characters `ToString` writes for a tree without null pointers whose tags lie in
the closed set. -/
def chars {fp : FloatingPoint} : Value fp → List Char
  | .null _ => []
  | .ImmediateValue v => "ImmediateValue\x7b".data ++ (v.text.data ++ "\x7d".data)
  | .BinaryExpression op l r =>
      "BinaryExpression\x7b ".data ++ (chars l ++ (" ".data ++ (symbolChars op ++
        (" ".data ++ (chars r ++ " \x7d".data)))))

/-- The call throws nothing: if it ends without a value, the behaviour is undefined. -/
def OnlyUndefined {α : Type} (r : Result α) : Prop :=
  ∀ f, r = .error f → f = .undefined_behaviour

/-- The number a list of decimal digits, most significant first, stands for. -/
def digitsValue (ds : List Char) : Nat :=
  ds.foldl (fun acc c => 10 * acc + (c.toNat - 48)) 0

/-! ## Lemmas on results -/

theorem ok_bind {α β : Type} (a : α) (f : α → Result β) :
    ((Except.ok a : Result α) >>= f) = f a := rfl

theorem error_bind {α β : Type} (e : Fault) (f : α → Result β) :
    ((Except.error e : Result α) >>= f) = Except.error e := rfl

/-! ## Lemmas on the registry and on rendering -/

theorem mem_closed_iff (op : ArithmeticOperation) :
    op ∈ ArithmeticOperation.closed ↔ op = .Add ∨ op = .Sub ∨ op = .Div ∨ op = .Mul := by
  simp [ArithmeticOperation.closed]

theorem mem_symbols_iff (s : String) :
    s ∈ symbols ↔ s = "+" ∨ s = "-" ∨ s = "/" ∨ s = "*" := by
  simp [symbols]

/-- A symbol outside the registry is absent from `CharOpMap`. -/
theorem CharOpMap_at_of_not_mem (s : String) (h : s ∉ symbols) :
    CharOpMap.at s = .error .out_of_range := by
  simp only [mem_symbols_iff, not_or] at h
  obtain ⟨h1, h2, h3, h4⟩ := h
  simp [UnorderedMap.at, CharOpMap, List.find?, Ne.symm h1, Ne.symm h2, Ne.symm h3,
    Ne.symm h4]

/-- The registry has a symbol for every tag of the closed set. -/
theorem OpCharMap_at_of_mem (op : ArithmeticOperation) (h : op ∈ ArithmeticOperation.closed) :
    ∃ sym, sym ∈ symbols ∧ OpCharMap.at op = .ok sym := by
  rw [mem_closed_iff] at h
  rcases h with h | h | h | h <;> subst h
  · exact ⟨"+", by decide, rfl⟩
  · exact ⟨"-", by decide, rfl⟩
  · exact ⟨"/", by decide, rfl⟩
  · exact ⟨"*", by decide, rfl⟩

/-- The registry has a tag for every operator symbol. -/
theorem CharOpMap_at_of_mem (s : String) (h : s ∈ symbols) :
    ∃ tag, tag ∈ ArithmeticOperation.closed ∧ CharOpMap.at s = .ok tag := by
  rw [mem_symbols_iff] at h
  rcases h with h | h | h | h <;> subst h
  · exact ⟨.Add, by decide, rfl⟩
  · exact ⟨.Sub, by decide, rfl⟩
  · exact ⟨.Div, by decide, rfl⟩
  · exact ⟨.Mul, by decide, rfl⟩

/-- Rendering a well-formed tree produces a text. -/
theorem ToString_wellFormed (fp : FloatingPoint) (t : Value fp) (h : wellFormed t = true) :
    ∃ s, ToString fp t = .ok s := by
  induction t with
  | null t => simp [wellFormed] at h
  | ImmediateValue v => exact ⟨_, rfl⟩
  | BinaryExpression op l r ihl ihr =>
      simp only [wellFormed, Bool.and_eq_true, decide_eq_true_eq] at h
      obtain ⟨sl, hl⟩ := ihl h.1.2
      obtain ⟨sr, hr⟩ := ihr h.2
      obtain ⟨sym, -, hs⟩ := OpCharMap_at_of_mem op h.1.1
      simp [ToString, hl, hr, hs, bind, Except.bind, pure, Except.pure]

/-- The digits `Nat.toDigitsCore` puts in front of its accumulator are the decimal
representation. -/
theorem toDigitsCore_eq_decimal (fuel : Nat) :
    ∀ (n : Nat) (ds : List Char), n < fuel →
      Nat.toDigitsCore 10 fuel n ds = decimal n ++ ds := by
  induction fuel with
  | zero => intro n ds h; omega
  | succ fuel ih =>
      intro n ds h
      rw [decimal]
      by_cases h10 : n < 10
      · have h0 : n / 10 = 0 := by omega
        have hm : n % 10 = n := by omega
        simp [Nat.toDigitsCore, h0, hm, h10]
      · have h0 : n / 10 ≠ 0 := by omega
        have hlt : n / 10 < fuel := by omega
        simp [Nat.toDigitsCore, h0, h10, ih (n / 10) _ hlt]

/-- The digits of `Nat.toDigits 10` are the decimal representation. -/
theorem toDigits_eq_decimal (n : Nat) : Nat.toDigits 10 n = decimal n := by
  simp [Nat.toDigits, toDigitsCore_eq_decimal (n + 1) n [] (Nat.lt_succ_self n)]

/-- A built-in operator followed by the conversion of its result to the common type is
the conversion of both operands to the common type followed by the operation there. -/
theorem builtin_then_return (fp : FloatingPoint) (iop : Int → Int → Result Int)
    (fop : fp.F → fp.F → fp.F) (a b : Lit fp) :
    (do
      let v ← builtinOperator fp iop fop a b
      convertTo fp (commonType a.type b.type) v)
    = (do
      let x ← convertTo fp (commonType a.type b.type) a
      let y ← convertTo fp (commonType a.type b.type) b
      sameType fp iop fop x y) := by
  cases a <;> cases b <;>
    simp [builtinOperator, sameType, convertTo, commonType, Lit.type, bind, Except.bind,
      pure, Except.pure]
  rename_i x y
  cases iop x y <;> rfl

/-- A value converted to the type `c` has the type `c`. -/
theorem convertTo_type (fp : FloatingPoint) (c : CType) (x v : Lit fp)
    (h : convertTo fp c x = .ok v) : v.type = c := by
  cases x <;> cases c <;> simp only [convertTo] at h
  · cases h; rfl
  · cases h; rfl
  · split at h
    · cases h; rfl
    · cases h
  · cases h; rfl

/-- The value a node returns has the static type of the node. -/
theorem GetValue_type (fp : FloatingPoint) (t : Value fp) (v : Lit fp)
    (h : GetValue fp t = .ok v) : v.type = typeOf t := by
  cases t with
  | null t => cases h
  | ImmediateValue x => cases h; rfl
  | BinaryExpression op l r =>
      simp only [GetValue] at h
      cases hl : GetValue fp l with
      | error e =>
        simp only [hl, error_bind] at h
        split_ifs at h
      | ok a =>
        cases hr : GetValue fp r with
        | error e =>
          simp only [hl, hr, ok_bind, error_bind] at h
          split_ifs at h
        | ok b =>
          simp only [hl, hr, ok_bind] at h
          split_ifs at h
          · cases ho : operatorAdd fp a b with
            | error e => simp [ho, error_bind] at h
            | ok x => rw [ho, ok_bind] at h; exact convertTo_type fp _ x v h
          · cases ho : operatorSub fp a b with
            | error e => simp [ho, error_bind] at h
            | ok x => rw [ho, ok_bind] at h; exact convertTo_type fp _ x v h
          · cases ho : operatorDiv fp a b with
            | error e => simp [ho, error_bind] at h
            | ok x => rw [ho, ok_bind] at h; exact convertTo_type fp _ x v h
          · cases ho : operatorMul fp a b with
            | error e => simp [ho, error_bind] at h
            | ok x => rw [ho, ok_bind] at h; exact convertTo_type fp _ x v h

/-! ## The claims -/

/-- C1: for every operation tag of the closed set and all literals `a`, `b`, the value of
`BinaryExpression(op, ImmediateValue(a), ImmediateValue(b))` is `apply(op, a, b)`, the
operation carried out in the common type of the two operand types. -/
theorem GetValue_immediates_eq_apply (fp : FloatingPoint) (op : ArithmeticOperation)
    (a b : Lit fp) (h : op ∈ ArithmeticOperation.closed) :
    GetValue fp (BinaryExpression.fromTag op (.ImmediateValue a) (.ImmediateValue b))
      = apply fp op a b := by
  rw [mem_closed_iff] at h
  rcases h with h | h | h | h <;> subst h <;>
    simp [BinaryExpression.fromTag, GetValue, apply, operatorAdd, operatorSub,
      operatorDiv, operatorMul, typeOf, ok_bind, builtin_then_return,
      ArithmeticOperation.Add, ArithmeticOperation.Sub, ArithmeticOperation.Div,
      ArithmeticOperation.Mul]

/-- Witness of C1: the quotient of 7 and 2 over `int`. -/
theorem GetValue_immediates_eq_apply_witness :
    ArithmeticOperation.Div ∈ ArithmeticOperation.closed ∧
    GetValue exactArith (BinaryExpression.fromTag .Div (.ImmediateValue (.int 7))
      (.ImmediateValue (.int 2))) = apply exactArith .Div (.int 7) (.int 2) :=
  ⟨by decide, GetValue_immediates_eq_apply exactArith .Div (.int 7) (.int 2) (by decide)⟩

/-- C2, as stated, fails: evaluating `5 / 0` over `int` ends with no thrown exception,
so no DivisionByZero error is reported. -/
theorem division_by_zero_not_reported :
    ¬ Thrown (GetValue exactArith (BinaryExpression.fromTag .Div
      (.ImmediateValue (.int 5)) (.ImmediateValue (.int 0)))) := by
  rintro ⟨f, hf, ht⟩
  have h : GetValue exactArith (BinaryExpression.fromTag .Div
      (.ImmediateValue (.int 5)) (.ImmediateValue (.int 0)))
      = .error .undefined_behaviour := rfl
  rw [h] at hf
  cases hf
  simp [Fault.isThrown] at ht

/-- C2, amended: for every integer literal `a`, evaluating
`BinaryExpression(Div, ImmediateValue(a), ImmediateValue(0))` over `int` carries out the
built-in division unchecked: it returns no value and throws nothing, the behaviour is
undefined. -/
theorem division_by_zero_undefined (fp : FloatingPoint) (a : Int) :
    GetValue fp (BinaryExpression.fromTag .Div (.ImmediateValue (.int a))
      (.ImmediateValue (.int 0))) = .error .undefined_behaviour := by
  simp [BinaryExpression.fromTag, GetValue, operatorDiv, builtinOperator, intDiv, ok_bind,
    error_bind, ArithmeticOperation.Add, ArithmeticOperation.Sub, ArithmeticOperation.Div]

/-- C3: constructing a `BinaryExpression` from an operator symbol that is none of "+",
"-", "/", "*" throws the `std::out_of_range` of the registry lookup (the UnknownOperator
condition) to the caller and constructs no node. -/
theorem fromSymbol_unknown (fp : FloatingPoint) (s : String) (lhs rhs : Value fp)
    (h : s ∉ symbols) :
    BinaryExpression.fromSymbol s lhs rhs = .error .out_of_range ∧
    Thrown (BinaryExpression.fromSymbol s lhs rhs) := by
  have e : BinaryExpression.fromSymbol s lhs rhs = .error .out_of_range := by
    simp [BinaryExpression.fromSymbol, CharOpMap_at_of_not_mem s h, error_bind]
  exact ⟨e, _, e, rfl⟩

/-- Witness of C3: the symbol "%". -/
theorem fromSymbol_unknown_witness :
    "%" ∉ symbols ∧
    (BinaryExpression.fromSymbol "%" (.ImmediateValue (.int 1)) (.ImmediateValue (.int 2)) :
      Result (Value exactArith)) = .error .out_of_range :=
  ⟨by decide, (fromSymbol_unknown exactArith "%" _ _ (by decide)).1⟩

/-- C4: the registry round-trips in both directions: every symbol of "+", "-", "/", "*"
has a tag whose symbol it is, and every tag of Add, Sub, Div, Mul has a symbol whose tag
it is. -/
theorem registry_round_trip :
    (∀ s ∈ symbols, (CharOpMap.at s >>= OpCharMap.at) = .ok s) ∧
    (∀ t ∈ ArithmeticOperation.closed, (OpCharMap.at t >>= CharOpMap.at) = .ok t) := by
  constructor
  · intro s hs
    rw [mem_symbols_iff] at hs
    rcases hs with h | h | h | h <;> subst h <;> rfl
  · intro t ht
    rw [mem_closed_iff] at ht
    rcases ht with h | h | h | h <;> subst h <;> rfl

/-- Witness of C4: the symbol "/" and the tag Div. -/
theorem registry_round_trip_witness :
    (CharOpMap.at "/" >>= OpCharMap.at) = .ok "/" ∧
    (OpCharMap.at .Div >>= CharOpMap.at) = .ok ArithmeticOperation.Div :=
  ⟨registry_round_trip.1 "/" (by decide), registry_round_trip.2 .Div (by decide)⟩

/-- C5: for every tag `op` of the closed set and operand nodes `l`, `r`, the operands and
the symbol lookup succeed and `ToString()` is "BinaryExpression{ ", the rendering of `l`,
a space, the registry symbol of `op`, a space, the rendering of `r`, and " }". -/
theorem ToString_BinaryExpression (fp : FloatingPoint) (op : ArithmeticOperation)
    (l r : Value fp) (hop : op ∈ ArithmeticOperation.closed)
    (hl : wellFormed l = true) (hr : wellFormed r = true) :
    ∃ sl sr sym, ToString fp l = .ok sl ∧ ToString fp r = .ok sr ∧
      OpCharMap.at op = .ok sym ∧
      ToString fp (.BinaryExpression op l r)
        = .ok ("BinaryExpression\x7b " ++ sl ++ " " ++ sym ++ " " ++ sr ++ " \x7d") := by
  obtain ⟨sl, hsl⟩ := ToString_wellFormed fp l hl
  obtain ⟨sr, hsr⟩ := ToString_wellFormed fp r hr
  obtain ⟨sym, -, hs⟩ := OpCharMap_at_of_mem op hop
  refine ⟨sl, sr, sym, hsl, hsr, hs, ?_⟩
  simp [ToString, hsl, hsr, hs, ok_bind, pure, Except.pure]

/-- Witness of C5: the difference of the literals -7 and 20. -/
theorem ToString_BinaryExpression_witness :
    ∃ sl sr sym,
      ToString exactArith (.ImmediateValue (.int (-7))) = .ok sl ∧
      ToString exactArith (.ImmediateValue (.int 20)) = .ok sr ∧
      OpCharMap.at .Sub = .ok sym ∧
      ToString exactArith
          (.BinaryExpression .Sub (.ImmediateValue (.int (-7))) (.ImmediateValue (.int 20)))
        = .ok ("BinaryExpression\x7b " ++ sl ++ " " ++ sym ++ " " ++ sr ++ " \x7d") :=
  ToString_BinaryExpression exactArith .Sub _ _ (by decide) rfl rfl

/-- C6: for every literal `v`, `ImmediateValue(v).GetValue()` returns `v` unchanged; it
does not fail. -/
theorem GetValue_ImmediateValue (fp : FloatingPoint) (v : Lit fp) :
    GetValue fp (.ImmediateValue v) = .ok v := rfl

/-- C7: for every literal `v`, `ImmediateValue(v).ToString()` is "ImmediateValue{", the
textual form of `v`, and "}"; for an integer the textual form is its decimal
representation, with a leading minus sign when it is negative. -/
theorem ToString_ImmediateValue (fp : FloatingPoint) :
    (∀ v : Lit fp,
      ToString fp (.ImmediateValue v) = .ok ("ImmediateValue\x7b" ++ v.text ++ "\x7d")) ∧
    (∀ n : Int,
      ToString fp (.ImmediateValue (.int n))
        = .ok ("ImmediateValue\x7b"
            ++ ((if n < 0 then "-" else "") ++ String.mk (decimal n.natAbs)) ++ "\x7d")) := by
  constructor
  · intro v
    simp [ToString]
  · intro n
    by_cases hn : n < 0 <;> simp [ToString, Lit.text, intText, hn, toDigits_eq_decimal]

/-- C8: constructing a `BinaryExpression` from a symbol of "+", "-", "/", "*" yields the
node the tag constructor yields for the tag the registry maps the symbol to, hence the
same `GetValue()` and the same `ToString()`. -/
theorem fromSymbol_eq_fromTag (fp : FloatingPoint) (s : String) (lhs rhs : Value fp)
    (h : s ∈ symbols) :
    ∃ tag, tag ∈ ArithmeticOperation.closed ∧ CharOpMap.at s = .ok tag ∧
      BinaryExpression.fromSymbol s lhs rhs = .ok (BinaryExpression.fromTag tag lhs rhs) ∧
      (BinaryExpression.fromSymbol s lhs rhs >>= GetValue fp)
        = GetValue fp (BinaryExpression.fromTag tag lhs rhs) ∧
      (BinaryExpression.fromSymbol s lhs rhs >>= ToString fp)
        = ToString fp (BinaryExpression.fromTag tag lhs rhs) := by
  obtain ⟨tag, hc, ht⟩ := CharOpMap_at_of_mem s h
  have e : BinaryExpression.fromSymbol s lhs rhs
      = .ok (BinaryExpression.fromTag tag lhs rhs) := by
    simp [BinaryExpression.fromSymbol, ht, ok_bind, pure, Except.pure]
  exact ⟨tag, hc, ht, e, by rw [e, ok_bind], by rw [e, ok_bind]⟩

/-- Witness of C8: the symbol "*" with the literals 6 and 7. -/
theorem fromSymbol_eq_fromTag_witness :
    ∃ tag, tag ∈ ArithmeticOperation.closed ∧ CharOpMap.at "*" = .ok tag ∧
      @BinaryExpression.fromSymbol exactArith "*" (.ImmediateValue (.int 6))
          (.ImmediateValue (.int 7))
        = .ok (BinaryExpression.fromTag tag (.ImmediateValue (.int 6))
            (.ImmediateValue (.int 7))) ∧
      (BinaryExpression.fromSymbol "*" (.ImmediateValue (.int 6)) (.ImmediateValue (.int 7))
          >>= GetValue exactArith)
        = GetValue exactArith (BinaryExpression.fromTag tag (.ImmediateValue (.int 6))
            (.ImmediateValue (.int 7))) ∧
      (BinaryExpression.fromSymbol "*" (.ImmediateValue (.int 6)) (.ImmediateValue (.int 7))
          >>= ToString exactArith)
        = ToString exactArith (BinaryExpression.fromTag tag (.ImmediateValue (.int 6))
            (.ImmediateValue (.int 7))) :=
  fromSymbol_eq_fromTag exactArith "*" _ _ (by decide)

/-- C9: mixed-type folding promotes to the common type: for an `int` left operand `a` and
a `double` right operand `b`, the value of
`BinaryExpression(Add, ImmediateValue(a), ImmediateValue(b))` is the `double` sum of `a`
converted to `double` and `b`; with `a = 2` and `b = 1.5` it is 3.5. -/
theorem GetValue_mixed_Add :
    (∀ (fp : FloatingPoint) (a : Int) (b : fp.F),
      GetValue fp (BinaryExpression.fromTag .Add (.ImmediateValue (.int a))
        (.ImmediateValue (.double b))) = .ok (.double (fp.add (fp.ofInt a) b))) ∧
    GetValue exactArith (BinaryExpression.fromTag .Add (.ImmediateValue (.int 2))
      (.ImmediateValue (.double (3 / 2 : ℚ)))) = .ok (.double (7 / 2 : ℚ)) := by
  have g : ∀ (fp : FloatingPoint) (a : Int) (b : fp.F),
      GetValue fp (BinaryExpression.fromTag .Add (.ImmediateValue (.int a))
        (.ImmediateValue (.double b))) = .ok (.double (fp.add (fp.ofInt a) b)) := by
    intro fp a b
    simp [BinaryExpression.fromTag, GetValue, operatorAdd, builtinOperator, convertTo,
      typeOf, commonType, Lit.type, ok_bind, pure, Except.pure]
  refine ⟨g, ?_⟩
  rw [g]
  simp only [exactArith]
  norm_num

/-- Text put in front keeps the occurrences. -/
theorem ContainsInOrder.prepend (pre s : String) (ps : List String)
    (h : ContainsInOrder s ps) : ContainsInOrder (pre ++ s) ps := by
  cases ps with
  | nil => trivial
  | cons p ps =>
      obtain ⟨u, rest, hs, hr⟩ := h
      exact ⟨pre ++ u, rest, by rw [hs, String.append_assoc, String.append_assoc,
        String.append_assoc], hr⟩

/-- The items of a sequence occur in their order in its rendering, whatever follows. -/
theorem Layout.items_contains (lay : Layout) (xs : List String) :
    ∀ (i : Nat) (tail : String), ContainsInOrder (lay.items i xs ++ tail) xs := by
  induction xs with
  | nil => intro i tail; trivial
  | cons x xs ih =>
      intro i tail
      refine ⟨lay.before i, lay.items (i + 1) xs ++ tail, ?_, ih (i + 1) tail⟩
      simp only [Layout.items, String.append_assoc]

/-- The items of a sequence occur in their order in the rendering of a name with them. -/
theorem Layout.render_contains (lay : Layout) (name : String) (xs : List String) :
    ContainsInOrder (lay.render name xs) xs := by
  unfold Layout.render
  rw [String.append_assoc]
  exact ContainsInOrder.prepend _ _ _ (lay.items_contains xs 0 _)

/-- A text that occurs after another one still does so when it is replaced by a text
inside it. -/
theorem ContainsInOrder.inside (s p x q y : String)
    (h : ContainsInOrder s [p, x ++ q ++ y]) : ContainsInOrder s [p, q] := by
  obtain ⟨u, rest, hs, v, w, hr, -⟩ := h
  refine ⟨u, rest, hs, v ++ x, y ++ w, ?_, trivial⟩
  rw [hr]
  simp only [String.append_assoc]

/-- Appending arguments one by one puts them at the end of `Args` in call order. -/
theorem Instruction.foldl_append_args {fp : FloatingPoint} (as : List (Arg fp)) :
    ∀ i : Instruction fp,
      as.foldl Instruction.append i = ⟨i.Name, i.Args ++ as⟩ := by
  induction as with
  | nil => intro i; simp
  | cons a as ih => intro i; simp [List.foldl, ih, Instruction.append]

/-- Appending nodes one by one to a label puts them at the end of `Body` in call order. -/
theorem Label.foldl_append_body {fp : FloatingPoint} (ns : List (Node fp)) :
    ∀ (name : String) (body : List (Node fp)),
      ns.foldl Label.append (.Label name body) = .Label name (body ++ ns) := by
  induction ns with
  | nil => intro name body; simp
  | cons n ns ih => intro name body; simp [List.foldl, ih, Label.append]

/-- C11: a label renders to a text that contains the `ToString()` of each body node in
append order; for `Label("L", [Instruction("I1"), Label("M", [Instruction("I2")])])` the
rendering of `I1` comes before the whole rendering of `M`, which contains the rendering of
`I2`, so the rendering of `I1` comes before the one of `I2`. -/
theorem Label_ToString_contains_body (R : Rendering) (fp : FloatingPoint) :
    (∀ (name : String) (ns : List (Node fp)) (ts : List String),
      Node.ToStringAll R fp ns = .ok ts →
      ∃ s, Node.ToString R fp (ns.foldl Label.append (Label.create name)) = .ok s ∧
        ContainsInOrder s ts) ∧
    (∃ r1 r2 rM rL,
      Node.ToString R fp (.Instruction (Instruction.create "I1")) = .ok r1 ∧
      Node.ToString R fp (.Instruction (Instruction.create "I2")) = .ok r2 ∧
      Node.ToString R fp
        (Label.append (Label.create "M") (.Instruction (Instruction.create "I2"))) = .ok rM ∧
      Node.ToString R fp
        (Label.append (Label.append (Label.create "L") (.Instruction (Instruction.create "I1")))
          (Label.append (Label.create "M") (.Instruction (Instruction.create "I2"))))
        = .ok rL ∧
      ContainsInOrder rL [r1, rM] ∧ ContainsInOrder rM [r2] ∧ ContainsInOrder rL [r1, r2]) := by
  have general : ∀ (name : String) (ns : List (Node fp)) (ts : List String),
      Node.ToStringAll R fp ns = .ok ts →
      ∃ s, Node.ToString R fp (ns.foldl Label.append (Label.create name)) = .ok s ∧
        ContainsInOrder s ts := by
    intro name ns ts h
    refine ⟨R.label.render name ts, ?_, R.label.render_contains name ts⟩
    simp [Label.create, Label.foldl_append_body, Node.ToString, h, ok_bind, pure, Except.pure]
  refine ⟨general, ?_⟩
  have h1 : Node.ToString R fp (.Instruction (Instruction.create "I1"))
      = .ok (R.instruction.render "I1" []) := rfl
  have h2 : Node.ToString R fp (.Instruction (Instruction.create "I2"))
      = .ok (R.instruction.render "I2" []) := rfl
  obtain ⟨rM, hM, cM⟩ := general "M" [.Instruction (Instruction.create "I2")]
    [R.instruction.render "I2" []] rfl
  obtain ⟨rL, hL, cL⟩ := general "L"
    [.Instruction (Instruction.create "I1"),
      Label.append (Label.create "M") (.Instruction (Instruction.create "I2"))]
    [R.instruction.render "I1" [], rM]
    (by
      have hM2 : Node.ToString R fp
          (Label.append (Label.create "M") (.Instruction (Instruction.create "I2")))
          = .ok rM := hM
      simp [Node.ToStringAll, h1, hM2, ok_bind, pure, Except.pure])
  refine ⟨_, _, rM, rL, h1, h2, hM, hL, cL, cM, ?_⟩
  obtain ⟨x, y, hx, -⟩ := cM
  rw [hx] at cL
  exact ContainsInOrder.inside _ _ _ _ _ cL

/-- Witness of C11: a label whose body is an instruction with a numeric argument and a
directive. -/
theorem Label_ToString_contains_body_witness :
    ∃ s, Node.ToString plainRendering exactArith
        ([Node.Instruction ⟨"push", [.number (.ImmediateValue (.int 3))]⟩,
          Node.Directive "limit" ["stack", "2"]].foldl Label.append (Label.create "main"))
        = .ok s ∧
      ContainsInOrder s ["push ImmediateValue\x7b3\x7d", "limit stack 2"] :=
  (Label_ToString_contains_body plainRendering exactArith).1 "main" _ _ rfl

/-- C12: an instruction whose arguments were appended in the order `A`, `B`, `C` renders
to a text that contains the renderings of `A`, `B` and `C` as substrings in that order;
the same holds for any number of appended arguments. -/
theorem Instruction_ToString_contains_args (lay : Layout) (fp : FloatingPoint)
    (name : String) :
    (∀ (A B C : Arg fp) (a b c : String),
      Arg.ToString fp A = .ok a → Arg.ToString fp B = .ok b → Arg.ToString fp C = .ok c →
      ∃ s, Instruction.ToString lay fp
          (((Instruction.create name).append A).append B |>.append C) = .ok s ∧
        ContainsInOrder s [a, b, c]) ∧
    (∀ (as : List (Arg fp)) (ts : List String),
      Arg.ToStringAll fp as = .ok ts →
      ∃ s, Instruction.ToString lay fp (as.foldl Instruction.append (Instruction.create name))
          = .ok s ∧
        ContainsInOrder s ts) := by
  have general : ∀ (as : List (Arg fp)) (ts : List String),
      Arg.ToStringAll fp as = .ok ts →
      ∃ s, Instruction.ToString lay fp (as.foldl Instruction.append (Instruction.create name))
          = .ok s ∧
        ContainsInOrder s ts := by
    intro as ts h
    refine ⟨lay.render name ts, ?_, lay.render_contains name ts⟩
    simp [Instruction.create, Instruction.foldl_append_args, Instruction.ToString, h, ok_bind,
      pure, Except.pure]
  refine ⟨?_, general⟩
  intro A B C a b c hA hB hC
  exact general [A, B, C] [a, b, c]
    (by simp [Arg.ToStringAll, hA, hB, hC, ok_bind, pure, Except.pure])

/-- Witness of C12: a string, a sum and a literal appended to an instruction. -/
theorem Instruction_ToString_contains_args_witness :
    ∃ s, Instruction.ToString plainLayout exactArith
        (((Instruction.create "ldc").append (.string (.ImmediateValue "x"))).append
          (.number (.BinaryExpression .Add (.ImmediateValue (.int 1))
            (.ImmediateValue (.int 2)))) |>.append (.number (.ImmediateValue (.int 3))))
        = .ok s ∧
      ContainsInOrder s ["ImmediateValue\x7bx\x7d",
        "BinaryExpression\x7b ImmediateValue\x7b1\x7d + ImmediateValue\x7b2\x7d \x7d",
        "ImmediateValue\x7b3\x7d"] :=
  (Instruction_ToString_contains_args plainLayout exactArith "ldc").1 _ _ _ _ _ _ rfl rfl rfl

/-- The value of a node with a tag of the closed set is `apply` on the values of its
operands. -/
theorem GetValue_node (fp : FloatingPoint) (op : ArithmeticOperation) (l r : Value fp)
    (h : op ∈ ArithmeticOperation.closed) :
    GetValue fp (.BinaryExpression op l r)
      = (do
          let a ← GetValue fp l
          let b ← GetValue fp r
          apply fp op a b) := by
  cases hl : GetValue fp l with
  | error e =>
      rw [mem_closed_iff] at h
      rcases h with h | h | h | h <;> subst h <;>
        simp [GetValue, hl, error_bind, ArithmeticOperation.Add, ArithmeticOperation.Sub,
          ArithmeticOperation.Div, ArithmeticOperation.Mul]
  | ok a =>
    cases hr : GetValue fp r with
    | error e =>
        rw [mem_closed_iff] at h
        rcases h with h | h | h | h <;> subst h <;>
          simp [GetValue, hl, hr, ok_bind, error_bind, ArithmeticOperation.Add,
            ArithmeticOperation.Sub, ArithmeticOperation.Div, ArithmeticOperation.Mul]
    | ok b =>
        have ta : typeOf l = a.type := (GetValue_type fp l a hl).symm
        have tb : typeOf r = b.type := (GetValue_type fp r b hr).symm
        rw [mem_closed_iff] at h
        rcases h with h | h | h | h <;> subst h <;>
          simp [GetValue, hl, hr, ta, tb, apply, operatorAdd, operatorSub, operatorDiv,
            operatorMul, ok_bind, builtin_then_return, ArithmeticOperation.Add,
            ArithmeticOperation.Sub, ArithmeticOperation.Div, ArithmeticOperation.Mul]

/-- C13: evaluation is compositional: for every tag `op` of the closed set and arbitrary
operand subtrees `l`, `r`, the value of `BinaryExpression(op, l, r)` is `apply` on the
values of `l` and `r`, evaluated first; so the value of a nested tree is the fold of its
operations over its leaf literals. -/
theorem GetValue_compositional (fp : FloatingPoint) :
    (∀ (op : ArithmeticOperation) (l r : Value fp), op ∈ ArithmeticOperation.closed →
      GetValue fp (BinaryExpression.fromTag op l r)
        = (do
            let a ← GetValue fp l
            let b ← GetValue fp r
            apply fp op a b)) ∧
    (∀ t : Value fp, tagsClosed t = true → GetValue fp t = fold fp t) := by
  refine ⟨fun op l r h => GetValue_node fp op l r h, ?_⟩
  intro t
  induction t with
  | null t => intro _; rfl
  | ImmediateValue v => intro _; rfl
  | BinaryExpression op l r ihl ihr =>
      intro h
      simp only [tagsClosed, Bool.and_eq_true, decide_eq_true_eq] at h
      rw [GetValue_node fp op l r h.1.1, ihl h.1.2, ihr h.2]
      rfl

/-- Witness of C13: `(7 - 1) / (1 + 1)` evaluates to the fold of its operations, 3. -/
theorem GetValue_compositional_witness :
    GetValue exactArith (.BinaryExpression .Div
        (.BinaryExpression .Sub (.ImmediateValue (.int 7)) (.ImmediateValue (.int 1)))
        (.BinaryExpression .Add (.ImmediateValue (.int 1)) (.ImmediateValue (.int 1))))
      = fold exactArith (.BinaryExpression .Div
        (.BinaryExpression .Sub (.ImmediateValue (.int 7)) (.ImmediateValue (.int 1)))
        (.BinaryExpression .Add (.ImmediateValue (.int 1)) (.ImmediateValue (.int 1)))) ∧
    fold exactArith (.BinaryExpression .Div
        (.BinaryExpression .Sub (.ImmediateValue (.int 7)) (.ImmediateValue (.int 1)))
        (.BinaryExpression .Add (.ImmediateValue (.int 1)) (.ImmediateValue (.int 1))))
      = .ok (.int 3) :=
  ⟨(GetValue_compositional exactArith).2 _ rfl, rfl⟩

/-- The remainder of the truncated division is smaller in magnitude than the divisor and
has the sign of the dividend. -/
theorem tmod_facts (a b : Int) (hb : b ≠ 0) :
    (Int.tmod a b).natAbs < b.natAbs ∧
      (0 ≤ a → 0 ≤ Int.tmod a b) ∧ (a ≤ 0 → Int.tmod a b ≤ 0) := by
  rcases a with m | m <;> rcases b with n | n
  · have hn : 0 < n := by
      rcases n with _ | n
      · exact absurd rfl hb
      · exact Nat.succ_pos n
    have h1 := Nat.mod_lt m hn
    have h2 := Nat.mod_le m n
    simp only [Int.tmod, Int.ofNat_eq_coe]
    omega
  · have h1 := Nat.mod_lt m (Nat.succ_pos n)
    have h2 := Nat.mod_le m (n + 1)
    simp only [Int.tmod, Int.ofNat_eq_coe, Int.negSucc_eq, Nat.succ_eq_add_one] at *
    omega
  · have hn : 0 < n := by
      rcases n with _ | n
      · exact absurd rfl hb
      · exact Nat.succ_pos n
    have h1 := Nat.mod_lt (m + 1) hn
    simp only [Int.tmod, Int.ofNat_eq_coe, Int.negSucc_eq, Nat.succ_eq_add_one] at *
    omega
  · have h1 := Nat.mod_lt (m + 1) (Nat.succ_pos n)
    simp only [Int.tmod, Int.ofNat_eq_coe, Int.negSucc_eq, Nat.succ_eq_add_one] at *
    omega

/-- The truncated quotient of two `int` values is an `int` value, except for
`INT_MIN / -1`. -/
theorem tdiv_isInt (a b : Int) (ha : isInt a = true) (hb0 : b ≠ 0)
    (hov : ¬ (a = INT_MIN ∧ b = -1)) : isInt (Int.tdiv a b) = true := by
  simp only [isInt, INT_MIN, INT_MAX, decide_eq_true_eq] at *
  have hq : (Int.tdiv a b).natAbs = a.natAbs / b.natAbs := Int.natAbs_tdiv a b
  by_cases h1 : b = 1
  · subst h1; simp only [Int.tdiv_one]; omega
  by_cases h2 : b = -1
  · subst h2
    have : Int.tdiv a (-1) = -a := by rw [Int.tdiv_neg, Int.tdiv_one]
    rw [this]; omega
  have hb2 : 2 ≤ b.natAbs := by omega
  have h3 : a.natAbs / b.natAbs ≤ a.natAbs / 2 := Nat.div_le_div_left hb2 (by decide)
  omega

/-- C14, as stated, fails: `INT_MIN / -1` has the nonzero divisor -1 and returns no
quotient; the result of the division is not a value of the type `int`. -/
theorem Div_INT_MIN_by_minus_one :
    (-1 : Int) ≠ 0 ∧
    ¬ ∃ q : Int, GetValue exactArith (BinaryExpression.fromTag .Div
        (.ImmediateValue (.int (-2147483648))) (.ImmediateValue (.int (-1))))
      = .ok (.int q) := by
  refine ⟨by decide, ?_⟩
  rintro ⟨q, hq⟩
  have h : GetValue exactArith (BinaryExpression.fromTag .Div
      (.ImmediateValue (.int (-2147483648))) (.ImmediateValue (.int (-1))))
      = .error .undefined_behaviour := rfl
  rw [h] at hq
  cases hq

/-- C14, amended: with an integer common type `Div` truncates toward zero: for all `int`
values `a` and `b` with `b != 0`, other than `a = INT_MIN` with `b = -1`, the value of
`BinaryExpression(Div, ImmediateValue(a), ImmediateValue(b))` is the quotient `q` with
`a = q*b + r`, `|r| < |b|`, and `r` of the sign of `a` or 0. -/
theorem Div_truncates_toward_zero (fp : FloatingPoint) (a b : Int)
    (ha : isInt a = true) (hb0 : b ≠ 0) (hov : ¬ (a = INT_MIN ∧ b = -1)) :
    ∃ q r : Int,
      GetValue fp (BinaryExpression.fromTag .Div (.ImmediateValue (.int a))
        (.ImmediateValue (.int b))) = .ok (.int q) ∧
      a = q * b + r ∧ r.natAbs < b.natAbs ∧
        (0 ≤ a → 0 ≤ r) ∧ (a ≤ 0 → r ≤ 0) := by
  have hq := tdiv_isInt a b ha hb0 hov
  simp only [isInt, decide_eq_true_eq] at hq
  refine ⟨Int.tdiv a b, Int.tmod a b, ?_, (Int.tdiv_add_tmod' a b).symm, tmod_facts a b hb0⟩
  simp [BinaryExpression.fromTag, GetValue, operatorDiv, builtinOperator, intDiv, inInt,
    convertTo, typeOf, commonType, Lit.type, hb0, hq, ok_bind, pure, Except.pure,
    ArithmeticOperation.Add, ArithmeticOperation.Sub, ArithmeticOperation.Div]

/-- Witness of C14: `-7 / 2` is -3 with remainder -1. -/
theorem Div_truncates_toward_zero_witness :
    GetValue exactArith (BinaryExpression.fromTag .Div (.ImmediateValue (.int (-7)))
        (.ImmediateValue (.int 2))) = .ok (.int (-3)) ∧
    ∃ q r : Int,
      GetValue exactArith (BinaryExpression.fromTag .Div (.ImmediateValue (.int (-7)))
        (.ImmediateValue (.int 2))) = .ok (.int q) ∧
      -7 = q * 2 + r ∧ r.natAbs < (2 : Int).natAbs ∧ ((0 : Int) ≤ -7 → 0 ≤ r) ∧
        ((-7 : Int) ≤ 0 → r ≤ 0) :=
  ⟨rfl, Div_truncates_toward_zero exactArith (-7) 2 (by decide) (by decide) (by decide)⟩

/-! ## Lemmas on calls that throw nothing -/

theorem OnlyUndefined.ok {α : Type} (a : α) : OnlyUndefined (.ok a : Result α) := by
  intro f h; cases h

theorem OnlyUndefined.undefined {α : Type} :
    OnlyUndefined (.error .undefined_behaviour : Result α) := by
  intro f h; cases h; rfl

theorem OnlyUndefined.bind {α β : Type} (r : Result α) (k : α → Result β)
    (hr : OnlyUndefined r) (hk : ∀ a, OnlyUndefined (k a)) : OnlyUndefined (r >>= k) := by
  cases r with
  | error e =>
      intro f h
      rw [error_bind] at h
      cases h
      exact hr e rfl
  | ok a => rw [ok_bind]; exact hk a

theorem inInt_onlyUndefined (r : Int) : OnlyUndefined (inInt r) := by
  unfold inInt
  split
  · exact OnlyUndefined.ok _
  · exact OnlyUndefined.undefined

theorem intDiv_onlyUndefined (a b : Int) : OnlyUndefined (intDiv a b) := by
  unfold intDiv
  split
  · exact OnlyUndefined.undefined
  · exact inInt_onlyUndefined _

theorem convertTo_onlyUndefined (fp : FloatingPoint) (c : CType) (x : Lit fp) :
    OnlyUndefined (convertTo fp c x) := by
  cases x <;> cases c <;> simp only [convertTo]
  · exact OnlyUndefined.ok _
  · exact OnlyUndefined.ok _
  · split
    · exact OnlyUndefined.ok _
    · exact OnlyUndefined.undefined
  · exact OnlyUndefined.ok _

theorem sameType_onlyUndefined (fp : FloatingPoint) (iop : Int → Int → Result Int)
    (fop : fp.F → fp.F → fp.F) (h : ∀ a b, OnlyUndefined (iop a b)) (x y : Lit fp) :
    OnlyUndefined (sameType fp iop fop x y) := by
  cases x <;> cases y <;> simp only [sameType]
  · exact OnlyUndefined.bind _ _ (h _ _) (fun _ => OnlyUndefined.ok _)
  · exact OnlyUndefined.undefined
  · exact OnlyUndefined.undefined
  · exact OnlyUndefined.ok _

/-- The operation `apply` throws nothing. -/
theorem apply_onlyUndefined (fp : FloatingPoint) (op : ArithmeticOperation) (a b : Lit fp) :
    OnlyUndefined (apply fp op a b) := by
  unfold apply
  refine OnlyUndefined.bind _ _ (convertTo_onlyUndefined _ _ _) (fun x => ?_)
  refine OnlyUndefined.bind _ _ (convertTo_onlyUndefined _ _ _) (fun y => ?_)
  split_ifs
  · exact sameType_onlyUndefined fp _ _ (fun a b => inInt_onlyUndefined _) x y
  · exact sameType_onlyUndefined fp _ _ (fun a b => inInt_onlyUndefined _) x y
  · exact sameType_onlyUndefined fp _ _ intDiv_onlyUndefined x y
  · exact sameType_onlyUndefined fp _ _ (fun a b => inInt_onlyUndefined _) x y

/-- Evaluating a tree whose tags lie in the closed set throws nothing. -/
theorem GetValue_onlyUndefined (fp : FloatingPoint) (t : Value fp)
    (h : tagsClosed t = true) : OnlyUndefined (GetValue fp t) := by
  induction t with
  | null t => exact OnlyUndefined.undefined
  | ImmediateValue v => exact OnlyUndefined.ok _
  | BinaryExpression op l r ihl ihr =>
      simp only [tagsClosed, Bool.and_eq_true, decide_eq_true_eq] at h
      rw [GetValue_node fp op l r h.1.1]
      exact OnlyUndefined.bind _ _ (ihl h.1.2) (fun a =>
        OnlyUndefined.bind _ _ (ihr h.2) (fun b => apply_onlyUndefined fp op a b))

/-- C15: the default branch of the switch is unreachable for a tag of the closed set: a
node with such a tag raises "unhandled arithmetic operation type" only if the evaluation
of one of its operands raised it, and a tree whose tags all lie in the closed set never
raises it. -/
theorem unhandled_operation_unreachable (fp : FloatingPoint) :
    (∀ (op : ArithmeticOperation) (l r : Value fp) (m : String),
      op ∈ ArithmeticOperation.closed →
      GetValue fp (BinaryExpression.fromTag op l r) = .error (.runtime_error m) →
      GetValue fp l = .error (.runtime_error m) ∨
        GetValue fp r = .error (.runtime_error m)) ∧
    (∀ (t : Value fp) (m : String), tagsClosed t = true →
      GetValue fp t ≠ .error (.runtime_error m)) := by
  constructor
  · intro op l r m hop h
    rw [BinaryExpression.fromTag, GetValue_node fp op l r hop] at h
    cases hl : GetValue fp l with
    | error e =>
        rw [hl, error_bind] at h
        exact Or.inl h
    | ok a =>
      cases hr : GetValue fp r with
      | error e =>
          rw [hl, ok_bind, hr, error_bind] at h
          exact Or.inr h
      | ok b =>
          rw [hl, ok_bind, hr, ok_bind] at h
          have := apply_onlyUndefined fp op a b _ h
          cases this
  · intro t m ht h
    have := GetValue_onlyUndefined fp t ht _ h
    cases this

/-- Witness of C15: `(7 - 1) / 0` has tags of the closed set and does not raise the
error of the default branch. -/
theorem unhandled_operation_unreachable_witness :
    GetValue exactArith (.BinaryExpression .Div
        (.BinaryExpression .Sub (.ImmediateValue (.int 7)) (.ImmediateValue (.int 1)))
        (.ImmediateValue (.int 0)))
      ≠ .error (.runtime_error "unhandled arithmetic operation type") :=
  (unhandled_operation_unreachable exactArith).2 _ _ rfl

/-- C16, as stated, fails: both constructors accept null operand pointers and store them,
so the node they produce has a null `Lhs` and a null `Rhs`. -/
theorem constructors_accept_null :
    invariant (BinaryExpression.fromTag .Add (.null .int) (.null .int) : Value exactArith)
      = false ∧
    (BinaryExpression.fromTag .Add (.null .int) (.null .int) : Value exactArith)
      = .BinaryExpression .Add (.null .int) (.null .int) ∧
    ∃ n : Value exactArith,
      BinaryExpression.fromSymbol "+" (.null .int) (.null .int) = .ok n ∧
        invariant n = false :=
  ⟨rfl, rfl, _, rfl, rfl⟩

/-- C16, amended: a `BinaryExpression` produced by either constructor holds the operand
pointers it was given, so `Lhs` and `Rhs` are not null when the arguments are not null;
the tag of a node built from a symbol is one of the four closed values, and the tag of a
node built from a tag is the tag given, one of the four closed values when the argument
is an enumerator. -/
theorem constructors_keep_invariant (fp : FloatingPoint) (lhs rhs : Value fp)
    (hl : lhs.isNull = false) (hr : rhs.isNull = false) :
    (∀ op : ArithmeticOperation,
      BinaryExpression.fromTag op lhs rhs = .BinaryExpression op lhs rhs ∧
      (op ∈ ArithmeticOperation.closed →
        invariant (BinaryExpression.fromTag op lhs rhs) = true)) ∧
    (∀ (s : String) (n : Value fp), BinaryExpression.fromSymbol s lhs rhs = .ok n →
      invariant n = true ∧
        ∃ op, op ∈ ArithmeticOperation.closed ∧ n = .BinaryExpression op lhs rhs) := by
  constructor
  · intro op
    refine ⟨rfl, fun hop => ?_⟩
    simp [BinaryExpression.fromTag, invariant, hl, hr, hop]
  · intro s n h
    by_cases hs : s ∈ symbols
    · obtain ⟨tag, hc, ht⟩ := CharOpMap_at_of_mem s hs
      simp only [BinaryExpression.fromSymbol, ht, ok_bind, pure, Except.pure] at h
      cases h
      exact ⟨by simp [BinaryExpression.fromTag, invariant, hl, hr, hc], tag, hc, rfl⟩
    · simp [BinaryExpression.fromSymbol, CharOpMap_at_of_not_mem s hs, error_bind] at h

/-- Witness of C16: the node built from the tag Sub over two literals. -/
theorem constructors_keep_invariant_witness :
    invariant (BinaryExpression.fromTag .Sub (.ImmediateValue (.int 1))
      (.ImmediateValue (.int 2)) : Value exactArith) = true :=
  ((constructors_keep_invariant exactArith (.ImmediateValue (.int 1))
    (.ImmediateValue (.int 2)) rfl rfl).1 .Sub).2 (by decide)

/-! ## Lemmas on integer-valued trees -/

/-- An operation whose exact result is a value of the type `int` returns it. -/
theorem inInt_ok (r : Int) (h : INT_MIN ≤ r ∧ r ≤ INT_MAX) : inInt r = .ok r :=
  if_pos h

/-- A tree without `Div` nodes has no zero divisor. -/
theorem noZeroDivisor_of_divFree (fp : FloatingPoint) (t : Value fp)
    (h : divFree t = true) : noZeroDivisor fp t = true := by
  induction t with
  | null t => rfl
  | ImmediateValue v => rfl
  | BinaryExpression op l r ihl ihr =>
      simp only [divFree, Bool.and_eq_true, Bool.not_eq_true', decide_eq_false_iff_not] at h
      simp [noZeroDivisor, ihl h.1.2, ihr h.2, h.1.1]

/-- An integer-valued tree without a zero divisor, all of whose exact results are values
of the type `int`, evaluates to its exact value. -/
theorem GetValue_eq_exactValue (fp : FloatingPoint) (t : Value fp)
    (hi : intTree t = true) (hc : tagsClosed t = true)
    (hz : noZeroDivisor fp t = true) (ho : noOverflow t = true) :
    GetValue fp t = .ok (.int (exactValue t)) := by
  induction t with
  | null t => simp [intTree] at hi
  | ImmediateValue v =>
      cases v with
      | int v => rfl
      | double v => simp [intTree] at hi
  | BinaryExpression op l r ihl ihr =>
      simp only [intTree, Bool.and_eq_true] at hi
      simp only [tagsClosed, Bool.and_eq_true, decide_eq_true_eq] at hc
      simp only [noZeroDivisor, Bool.and_eq_true, Bool.or_eq_true, Bool.not_eq_true',
        decide_eq_false_iff_not] at hz
      simp only [noOverflow, Bool.and_eq_true] at ho
      have hl := ihl hi.1 hc.1.2 hz.1.1 ho.1.1
      have hr := ihr hi.2 hc.2 hz.1.2 ho.1.2
      have hres := ho.2
      simp only [isInt, decide_eq_true_eq] at hres
      have hdiv : op = .Div → exactValue r ≠ 0 := by
        intro hop
        rcases hz.2 with h | h
        · exact absurd hop h
        · rw [hr] at h
          simpa [isZero] using h
      rw [GetValue_node fp op l r hc.1.1, hl, hr, ok_bind, ok_bind]
      have hop := hc.1.1
      rw [mem_closed_iff] at hop
      rcases hop with h | h | h | h <;> subst h
      · simp only [exactValue, if_true] at hres
        simp [apply, sameType, convertTo, commonType, Lit.type, intAdd, inInt_ok _ hres, ok_bind,
          pure, Except.pure, exactValue]
      · have e : exactValue (Value.BinaryExpression .Sub l r)
            = exactValue l - exactValue r := by
          simp [exactValue, ArithmeticOperation.Add, ArithmeticOperation.Sub]
        rw [e] at hres ⊢
        simp [apply, sameType, convertTo, commonType, Lit.type, intSub, inInt_ok _ hres, ok_bind,
          pure, Except.pure, ArithmeticOperation.Add, ArithmeticOperation.Sub]
      · have e : exactValue (Value.BinaryExpression .Div l r)
            = Int.tdiv (exactValue l) (exactValue r) := by
          simp [exactValue, ArithmeticOperation.Add, ArithmeticOperation.Sub,
            ArithmeticOperation.Div]
        rw [e] at hres ⊢
        simp [apply, sameType, convertTo, commonType, Lit.type, intDiv, inInt_ok _ hres,
          hdiv rfl, ok_bind, pure, Except.pure, ArithmeticOperation.Add,
          ArithmeticOperation.Sub, ArithmeticOperation.Div]
      · have e : exactValue (Value.BinaryExpression .Mul l r)
            = exactValue l * exactValue r := by
          simp [exactValue, ArithmeticOperation.Add, ArithmeticOperation.Sub,
            ArithmeticOperation.Div, ArithmeticOperation.Mul]
        rw [e] at hres ⊢
        simp [apply, sameType, convertTo, commonType, Lit.type, intMul, inInt_ok _ hres, ok_bind,
          pure, Except.pure, ArithmeticOperation.Add, ArithmeticOperation.Sub,
          ArithmeticOperation.Div, ArithmeticOperation.Mul]

/-- C17, as stated, fails: `INT_MAX + 1` is built from `Add` alone and `INT_MIN / -1`
has the nonzero divisor -1, yet neither evaluation returns a value; the result is not a
value of the type `int`. -/
theorem overflow_without_zero_divisor :
    (intTree (.BinaryExpression .Add (.ImmediateValue (.int 2147483647))
        (.ImmediateValue (.int 1)) : Value exactArith) = true ∧
      divFree (.BinaryExpression .Add (.ImmediateValue (.int 2147483647))
        (.ImmediateValue (.int 1)) : Value exactArith) = true ∧
      noZeroDivisor exactArith (.BinaryExpression .Add (.ImmediateValue (.int 2147483647))
        (.ImmediateValue (.int 1))) = true ∧
      GetValue exactArith (.BinaryExpression .Add (.ImmediateValue (.int 2147483647))
        (.ImmediateValue (.int 1))) = .error .undefined_behaviour) ∧
    (intTree (.BinaryExpression .Div (.ImmediateValue (.int (-2147483648)))
        (.ImmediateValue (.int (-1))) : Value exactArith) = true ∧
      noZeroDivisor exactArith (.BinaryExpression .Div (.ImmediateValue (.int (-2147483648)))
        (.ImmediateValue (.int (-1)))) = true ∧
      GetValue exactArith (.BinaryExpression .Div (.ImmediateValue (.int (-2147483648)))
        (.ImmediateValue (.int (-1)))) = .error .undefined_behaviour) :=
  ⟨⟨by decide, by decide, rfl, rfl⟩, by decide, rfl, rfl⟩

/-- C17, amended: over integer-valued expression trees `GetValue()` throws nothing and
fails only where the built-in arithmetic is undefined: if no `Div` node has a right
operand that evaluates to 0 and the exact result of every node is a value of the type
`int`, then `GetValue()` returns that result; in particular so does every tree built only
from `Add`, `Sub` and `Mul` whose results stay in the range of `int`. -/
theorem GetValue_int_tree (fp : FloatingPoint) (t : Value fp)
    (hi : intTree t = true) (hc : tagsClosed t = true) :
    OnlyUndefined (GetValue fp t) ∧
    (noZeroDivisor fp t = true → noOverflow t = true →
      GetValue fp t = .ok (.int (exactValue t))) ∧
    (divFree t = true → noOverflow t = true →
      GetValue fp t = .ok (.int (exactValue t))) :=
  ⟨GetValue_onlyUndefined fp t hc,
    fun hz ho => GetValue_eq_exactValue fp t hi hc hz ho,
    fun hd ho => GetValue_eq_exactValue fp t hi hc (noZeroDivisor_of_divFree fp t hd) ho⟩

/-- Witness of C17: `(7 - 1) / (1 + 1)` evaluates to 3. -/
theorem GetValue_int_tree_witness :
    GetValue exactArith (.BinaryExpression .Div
        (.BinaryExpression .Sub (.ImmediateValue (.int 7)) (.ImmediateValue (.int 1)))
        (.BinaryExpression .Add (.ImmediateValue (.int 1)) (.ImmediateValue (.int 1))))
      = .ok (.int 3) :=
  (GetValue_int_tree exactArith _ (by decide) (by decide)).2.1 rfl (by decide)

/-! ## Lemmas on decimal digits -/

/-- The character of a digit stands for the digit. -/
theorem digitChar_value (d : Nat) (h : d < 10) : (Nat.digitChar d).toNat - 48 = d := by
  interval_cases d <;> rfl

/-- The character of a digit is neither a minus sign nor a closing brace. -/
theorem digitChar_ne (d : Nat) (h : d < 10) :
    Nat.digitChar d ≠ Char.ofNat 45 ∧ Nat.digitChar d ≠ Char.ofNat 125 := by
  interval_cases d <;> decide

theorem digitsValue_append (ds : List Char) (c : Char) :
    digitsValue (ds ++ [c]) = 10 * digitsValue ds + (c.toNat - 48) := by
  simp [digitsValue, List.foldl_append]

/-- The decimal representation of a number stands for the number. -/
theorem digitsValue_decimal (n : Nat) : digitsValue (decimal n) = n := by
  induction n using Nat.strong_induction_on with
  | _ n ih =>
      rw [decimal]
      by_cases h : n < 10
      · simp [h, digitsValue, digitChar_value n h]
      · rw [if_neg h, digitsValue_append, ih (n / 10) (by omega),
          digitChar_value (n % 10) (by omega)]
        omega

/-- The decimal representation is injective. -/
theorem decimal_injective (m n : Nat) (h : decimal m = decimal n) : m = n := by
  have := congrArg digitsValue h
  rwa [digitsValue_decimal, digitsValue_decimal] at this

/-- The decimal representation has no minus sign and no closing brace. -/
theorem decimal_chars (n : Nat) :
    ∀ c ∈ decimal n, c ≠ Char.ofNat 45 ∧ c ≠ Char.ofNat 125 := by
  induction n using Nat.strong_induction_on with
  | _ n ih =>
      rw [decimal]
      by_cases h : n < 10
      · intro c hc
        simp only [h, if_true, List.mem_singleton] at hc
        subst hc
        exact digitChar_ne n h
      · intro c hc
        simp only [h, if_false, List.mem_append, List.mem_singleton] at hc
        rcases hc with hc | hc
        · exact ih (n / 10) (by omega) c hc
        · subst hc
          exact digitChar_ne (n % 10) (by omega)

/-- The decimal representation is not empty. -/
theorem decimal_ne_nil (n : Nat) : decimal n ≠ [] := by
  rw [decimal]
  split <;> simp

/-- The characters `operator<<` writes for an `int`. -/
theorem intText_data (v : Int) :
    (intText v).data
      = if v < 0 then Char.ofNat 45 :: decimal v.natAbs else decimal v.natAbs := by
  unfold intText
  split <;> simp [toDigits_eq_decimal, String.data_append]

/-- The text of an `int` has no closing brace. -/
theorem intText_no_brace (v : Int) : ∀ c ∈ (intText v).data, c ≠ Char.ofNat 125 := by
  intro c hc
  rw [intText_data] at hc
  split at hc
  · rcases List.mem_cons.1 hc with h | h
    · subst h; decide
    · exact (decimal_chars _ c h).2
  · exact (decimal_chars _ c hc).2

/-- The text of an `int` determines the `int`. -/
theorem intText_injective (v w : Int) (h : (intText v).data = (intText w).data) :
    v = w := by
  rw [intText_data, intText_data] at h
  have hd : ∀ n : Nat, ∀ l, decimal n ≠ Char.ofNat 45 :: l := by
    intro n l e
    have := decimal_chars n (Char.ofNat 45) (by rw [e]; exact List.mem_cons_self _ _)
    exact this.1 rfl
  split at h <;> split at h
  · have := decimal_injective _ _ (List.cons.inj h).2
    omega
  · exact absurd h.symm (hd _ _)
  · exact absurd h (hd _ _)
  · have := decimal_injective _ _ h
    omega

/-- Two lists without the marker `c`, each followed by `c`, that agree as prefixes are
equal. -/
theorem eq_of_append_marker (c : Char) :
    ∀ (l₁ l₂ x y : List Char), (∀ a ∈ l₁, a ≠ c) → (∀ a ∈ l₂, a ≠ c) →
      l₁ ++ c :: x = l₂ ++ c :: y → l₁ = l₂ ∧ x = y := by
  intro l₁
  induction l₁ with
  | nil =>
      intro l₂ x y _ h₂ h
      cases l₂ with
      | nil => exact ⟨rfl, (List.cons.inj h).2⟩
      | cons b l₂ =>
          have := (List.cons.inj h).1
          exact absurd this.symm (h₂ b (List.mem_cons_self _ _))
  | cons a l₁ ih =>
      intro l₂ x y h₁ h₂ h
      cases l₂ with
      | nil =>
          have := (List.cons.inj h).1
          exact absurd this (h₁ a (List.mem_cons_self _ _))
      | cons b l₂ =>
          obtain ⟨hab, ht⟩ := List.cons.inj h
          obtain ⟨e, exy⟩ := ih l₂ x y (fun a ha => h₁ a (List.mem_cons_of_mem _ ha))
            (fun a ha => h₂ a (List.mem_cons_of_mem _ ha)) ht
          exact ⟨by rw [hab, e], exy⟩

/-! ## Lemmas on the characters of a rendering -/

/-- A tag the registry has a symbol for lies in the closed set. -/
theorem mem_closed_of_OpCharMap_at (op : ArithmeticOperation) (sym : String)
    (h : OpCharMap.at op = .ok sym) : op ∈ ArithmeticOperation.closed := by
  by_contra hn
  simp only [mem_closed_iff, not_or] at hn
  obtain ⟨h1, h2, h3, h4⟩ := hn
  simp [UnorderedMap.at, OpCharMap, List.find?, Ne.symm h1, Ne.symm h2, Ne.symm h3,
    Ne.symm h4] at h

/-- A tree that renders has no null pointer and only tags of the closed set. -/
theorem wellFormed_of_ToString (fp : FloatingPoint) (t : Value fp) :
    ∀ s, ToString fp t = .ok s → wellFormed t = true := by
  induction t with
  | null t => intro s h; cases h
  | ImmediateValue v => intro s h; rfl
  | BinaryExpression op l r ihl ihr =>
      intro s h
      simp only [ToString] at h
      cases hl : ToString fp l with
      | error e => rw [hl, error_bind] at h; cases h
      | ok sl =>
        rw [hl, ok_bind] at h
        cases hs : OpCharMap.at op with
        | error e => rw [hs, error_bind] at h; cases h
        | ok sym =>
          rw [hs, ok_bind] at h
          cases hr : ToString fp r with
          | error e => rw [hr, error_bind] at h; cases h
          | ok sr =>
            simp [wellFormed, ihl sl hl, ihr sr hr, mem_closed_of_OpCharMap_at op sym hs]

/-- The text `ToString` returns for a well-formed tree consists of the characters
`chars`. -/
theorem ToString_eq_chars (fp : FloatingPoint) (t : Value fp) (h : wellFormed t = true) :
    ToString fp t = .ok (String.mk (chars t)) := by
  induction t with
  | null t => simp [wellFormed] at h
  | ImmediateValue v =>
      simp only [ToString, chars]
      exact congrArg Except.ok (String.ext (by simp [String.data_append]))
  | BinaryExpression op l r ihl ihr =>
      simp only [wellFormed, Bool.and_eq_true, decide_eq_true_eq] at h
      obtain ⟨sym, -, hs⟩ := OpCharMap_at_of_mem op h.1.1
      simp only [ToString, ihl h.1.2, ihr h.2, hs, ok_bind, pure, Except.pure, chars,
        symbolChars]
      exact congrArg Except.ok (String.ext (by simp [String.data_append]))

/-- The symbols of two tags of the closed set, each followed by more text, agree only
for equal tags. -/
theorem symbolChars_injective (op₁ op₂ : ArithmeticOperation)
    (h₁ : op₁ ∈ ArithmeticOperation.closed) (h₂ : op₂ ∈ ArithmeticOperation.closed)
    (x y : List Char) (h : symbolChars op₁ ++ x = symbolChars op₂ ++ y) :
    op₁ = op₂ ∧ x = y := by
  have eA : symbolChars .Add = [Char.ofNat 43] := rfl
  have eS : symbolChars .Sub = [Char.ofNat 45] := rfl
  have eD : symbolChars .Div = [Char.ofNat 47] := rfl
  have eM : symbolChars .Mul = [Char.ofNat 42] := rfl
  rw [mem_closed_iff] at h₁ h₂
  rcases h₁ with e₁ | e₁ | e₁ | e₁ <;> rcases h₂ with e₂ | e₂ | e₂ | e₂ <;>
    subst e₁ <;> subst e₂ <;>
    simp only [eA, eS, eD, eM, List.singleton_append, List.cons.injEq] at h <;>
    first
      | exact ⟨rfl, h.2⟩
      | exact absurd h.1 (by decide)

/-- No rendering of an integer-valued tree is a proper prefix of another one: two
renderings, each followed by more text, agree only for equal trees. -/
theorem chars_prefix_free (fp : FloatingPoint) (t₁ : Value fp) :
    ∀ (t₂ : Value fp) (x y : List Char),
      intTree t₁ = true → wellFormed t₁ = true → intTree t₂ = true →
      wellFormed t₂ = true → chars t₁ ++ x = chars t₂ ++ y → t₁ = t₂ ∧ x = y := by
  have hI : "ImmediateValue\x7b".data = Char.ofNat 73 :: "mmediateValue\x7b".data := rfl
  have hB : "BinaryExpression\x7b ".data = Char.ofNat 66 :: "inaryExpression\x7b ".data :=
    rfl
  have hc : "\x7d".data = [Char.ofNat 125] := rfl
  induction t₁ with
  | null t => intro t₂ x y h; simp [intTree] at h
  | ImmediateValue v =>
      intro t₂ x y hi₁ _ hi₂ _ h
      cases t₂ with
      | null t => simp [intTree] at hi₂
      | ImmediateValue w =>
          cases v with
          | double v => simp [intTree] at hi₁
          | int v =>
            cases w with
            | double w => simp [intTree] at hi₂
            | int w =>
              simp only [chars, Lit.text, List.append_assoc, hc, List.singleton_append] at h
              have h' := List.append_cancel_left h
              obtain ⟨e, exy⟩ := eq_of_append_marker _ _ _ _ _ (intText_no_brace v)
                (intText_no_brace w) h'
              rw [intText_injective v w e]
              exact ⟨rfl, exy⟩
      | BinaryExpression op l r =>
          simp only [chars, hI, hB, List.cons_append, List.cons.injEq] at h
          exact absurd h.1 (by decide)
  | BinaryExpression op l r ihl ihr =>
      intro t₂ x y hi₁ hw₁ hi₂ hw₂ h
      cases t₂ with
      | null t => simp [intTree] at hi₂
      | ImmediateValue w =>
          simp only [chars, hI, hB, List.cons_append, List.cons.injEq] at h
          exact absurd h.1 (by decide)
      | BinaryExpression op₂ l₂ r₂ =>
          simp only [intTree, Bool.and_eq_true] at hi₁ hi₂
          simp only [wellFormed, Bool.and_eq_true, decide_eq_true_eq] at hw₁ hw₂
          simp only [chars, List.append_assoc] at h
          have h1 := List.append_cancel_left h
          obtain ⟨el, h2⟩ := ihl l₂ _ _ hi₁.1 hw₁.1.2 hi₂.1 hw₂.1.2 h1
          have h3 := List.append_cancel_left h2
          obtain ⟨eo, h4⟩ := symbolChars_injective op op₂ hw₁.1.1 hw₂.1.1 _ _ h3
          have h5 := List.append_cancel_left h4
          obtain ⟨er, h6⟩ := ihr r₂ _ _ hi₁.2 hw₁.2 hi₂.2 hw₂.2 h5
          have h7 := List.append_cancel_left h6
          rw [el, eo, er]
          exact ⟨rfl, h7⟩

/-- C18: rendering is injective on integer-valued expression trees: two trees built from
`ImmediateValue<int>` leaves and `BinaryExpression` nodes whose `ToString()` results are
equal are structurally identical. -/
theorem ToString_injective (fp : FloatingPoint) (t₁ t₂ : Value fp) (s : String)
    (hi₁ : intTree t₁ = true) (hi₂ : intTree t₂ = true)
    (h₁ : ToString fp t₁ = .ok s) (h₂ : ToString fp t₂ = .ok s) : t₁ = t₂ := by
  have w₁ := wellFormed_of_ToString fp t₁ s h₁
  have w₂ := wellFormed_of_ToString fp t₂ s h₂
  rw [ToString_eq_chars fp t₁ w₁] at h₁
  rw [ToString_eq_chars fp t₂ w₂] at h₂
  have e : chars t₁ = chars t₂ :=
    congrArg String.data (Except.ok.inj (h₁.trans h₂.symm))
  exact (chars_prefix_free fp t₁ t₂ [] [] hi₁ w₁ hi₂ w₂ (by rw [e])).1

/-- Witness of C18: the tree of `-7 - 20` and the node the symbol constructor builds
from "-" have the same rendering and are the same tree. -/
theorem ToString_injective_witness :
    ToString exactArith
        (.BinaryExpression .Sub (.ImmediateValue (.int (-7))) (.ImmediateValue (.int 20)))
      = .ok "BinaryExpression\x7b ImmediateValue\x7b-7\x7d - ImmediateValue\x7b20\x7d \x7d" ∧
    (.BinaryExpression .Sub (.ImmediateValue (.int (-7))) (.ImmediateValue (.int 20)) :
        Value exactArith)
      = BinaryExpression.fromTag ⟨1⟩ (.ImmediateValue (.int (-7)))
          (.ImmediateValue (.int 20)) :=
  ⟨rfl, ToString_injective exactArith _ _ _ (by decide) (by decide) rfl rfl⟩

end AstNodes
end Jasmin
